import Mathlib

/-!
Verification development for the `register-regex` engine
(src/register-regex/src/engine.rs, engine/codegen.rs, engine/evaluator.rs).

The Rust source is shallowly embedded:
* `usize` is modelled as `Nat` with an explicit bound `USIZE_MAX = 2^64 - 1`
  (64-bit target); the checked addition `safe_add` from `helper.rs` fails
  instead of wrapping.
* fallible Rust functions returning `Result` become `Except`;
* the possibly non-terminating backtracking evaluator `eval_depth` takes an
  explicit fuel argument and returns `none` when the fuel runs out, so a run
  that diverges in Rust is the run whose result is `none` at every fuel;
* `unimplemented!()` (a panic) is modelled by the `PanicOr.panicked` marker.
-/

namespace RegexEngine

/-- The value `usize::MAX` on the (64-bit) target. -/
def USIZE_MAX : Nat := 2 ^ 64 - 1

/-- Modelled from the spec: `helper.rs` (absent from src/) provides a
"small arithmetic-safety helper (checked increment/addition)" that
"fails rather than silently wrapping when the counter would exceed the
representable address range".  `safe_add a b` returns `none` exactly when
`a + b` is not representable in `usize`. -/
def safe_add (a b : Nat) : Option Nat :=
  if a + b > USIZE_MAX then none else some (a + b)

/-- Instructions of the regex virtual machine (engine.rs, `enum Instruction`). -/
inductive Instruction where
  | Char : Char → Instruction
  | Match : Instruction
  | Jump : Nat → Instruction
  | Split : Nat → Nat → Instruction
  deriving DecidableEq, Repr

/-- Modelled from the spec: the syntax tree produced by `parser.rs`
(absent from src/).  The variant shapes are exactly the ones consumed by
`codegen.rs` (`AST::Char`, `AST::Or`, `AST::Seq`, `AST::Star`, `AST::Plus`,
`AST::Question`). -/
inductive AST where
  | Char : Char → AST
  | Or : AST → AST → AST
  | Seq : List AST → AST
  | Star : AST → AST
  | Plus : AST → AST
  | Question : AST → AST

/-- Code-generator errors (codegen.rs, `enum CodeGenError`). -/
inductive CodeGenError where
  | PCOverFlow : CodeGenError
  | FailStar : CodeGenError
  | FailOr : CodeGenError
  | FailQuestion : CodeGenError
  deriving DecidableEq, Repr

/-- Generator state (codegen.rs, `struct Generator`).  `Default` gives
`pc = 0`, `insts = []`. -/
structure Generator where
  pc : Nat
  insts : List Instruction
  deriving DecidableEq, Repr

/-- Method `Generator::inc_pc`: checked increment of the program counter. -/
def inc_pc (g : Generator) : Except CodeGenError Generator :=
  match safe_add g.pc 1 with
  | none => .error .PCOverFlow
  | some pc => .ok { g with pc := pc }

/-- The push `self.insts.push(i)`. -/
def pushInst (g : Generator) (i : Instruction) : Generator :=
  { g with insts := g.insts ++ [i] }

/-- The `if let Some(Instruction::Split(_, l2)) = self.insts.get_mut(addr)`
patch pattern: overwrite the second operand of the `Split` at `addr`,
failing with `e` when the instruction there is not a `Split`. -/
def patchSplit2 (g : Generator) (addr target : Nat) (e : CodeGenError) :
    Except CodeGenError Generator :=
  match g.insts[addr]? with
  | some (.Split a1 _) => .ok { g with insts := g.insts.set addr (.Split a1 target) }
  | _ => .error e

/-- The `if let Some(Instruction::Jump(l3)) = self.insts.get_mut(addr)`
patch pattern: overwrite the operand of the `Jump` at `addr`. -/
def patchJump (g : Generator) (addr target : Nat) (e : CodeGenError) :
    Except CodeGenError Generator :=
  match g.insts[addr]? with
  | some (.Jump _) => .ok { g with insts := g.insts.set addr (.Jump target) }
  | _ => .error e

/-- Method `Generator::gen_char`. -/
def gen_char (g : Generator) (c : Char) : Except CodeGenError Generator :=
  inc_pc (pushInst g (.Char c))

mutual

/-- Method `Generator::gen_expr`: dispatch on the tree node.  The per-construct
methods `gen_or`, `gen_star`, `gen_plus`, `gen_question` of the source are
inlined here so that the recursion is structural; they are recovered below
as definitions with definitional unfolding lemmas. -/
def gen_expr (ast : AST) (g : Generator) : Except CodeGenError Generator :=
  match ast with
  | .Char c => gen_char g c
  | .Or e1 e2 => do
      -- Generator::gen_or
      let split_addr := g.pc
      let g ← inc_pc g
      let g := pushInst g (.Split g.pc 0)
      let g ← gen_expr e1 g
      let jmp_addr := g.pc
      let g := pushInst g (.Jump 0)
      let g ← inc_pc g
      let g ← patchSplit2 g split_addr g.pc .FailOr
      let g ← gen_expr e2 g
      patchJump g jmp_addr g.pc .FailOr
  | .Seq es => gen_seq es g
  | .Star e => do
      -- Generator::gen_star
      let l1 := g.pc
      let g ← inc_pc g
      let g := pushInst g (.Split g.pc 0)
      let g ← gen_expr e g
      let g ← inc_pc g
      let g := pushInst g (.Jump l1)
      patchSplit2 g l1 g.pc .FailStar
  | .Plus e => do
      -- Generator::gen_plus
      let l1 := g.pc
      let g ← gen_expr e g
      let g ← inc_pc g
      pure (pushInst g (.Split l1 g.pc))
  | .Question e => do
      -- Generator::gen_question
      let split_addr := g.pc
      let g ← inc_pc g
      let g := pushInst g (.Split g.pc 0)
      let g ← gen_expr e g
      patchSplit2 g split_addr g.pc .FailQuestion

/-- Method `Generator::gen_seq`: generate each child in order. -/
def gen_seq (es : List AST) (g : Generator) : Except CodeGenError Generator :=
  match es with
  | [] => .ok g
  | e :: rest => do
      let g ← gen_expr e g
      gen_seq rest g

end

/-- Method `Generator::gen_or`: `split L1, L2; L1: e1; jmp L3; L2: e2; L3:`. -/
def gen_or (e1 e2 : AST) (g : Generator) : Except CodeGenError Generator :=
  gen_expr (.Or e1 e2) g

/-- Method `Generator::gen_plus`: `L1: e; split L1, L2; L2:`. -/
def gen_plus (e : AST) (g : Generator) : Except CodeGenError Generator :=
  gen_expr (.Plus e) g

/-- Method `Generator::gen_star`: `L1: split L2, L3; L2: e; jmp L1; L3:`. -/
def gen_star (e : AST) (g : Generator) : Except CodeGenError Generator :=
  gen_expr (.Star e) g

/-- Method `Generator::gen_question`: `split L1, L2; L1: e; L2:`. -/
def gen_question (e : AST) (g : Generator) : Except CodeGenError Generator :=
  gen_expr (.Question e) g

/-- Method `Generator::gen_code`: generate the tree, then emit the trailing `Match`. -/
def gen_code (ast : AST) (g : Generator) : Except CodeGenError Generator := do
  let g ← gen_expr ast g
  let g ← inc_pc g
  pure (pushInst g .Match)

/-- Function `get_code`: run the generator from the default state and return
the instruction list. -/
def get_code (ast : AST) : Except CodeGenError (List Instruction) :=
  match gen_code ast { pc := 0, insts := [] } with
  | .ok g => .ok g.insts
  | .error e => .error e

/-- Evaluator errors (evaluator.rs, `enum EvalError`). -/
inductive EvalError where
  | PCOverFlow : EvalError
  | SPOverFlow : EvalError
  | InvalidPC : EvalError
  deriving DecidableEq, Repr

/-- Function `eval_depth`: the backtracking evaluator.  The Rust function is a loop
with recursion at `Split`; both the loop step and the recursive call consume
one unit of fuel, so a Rust run that never returns is exactly a run whose
result here is `none` for every fuel. -/
def eval_depth (fuel : Nat) (inst : List Instruction) (line : List Char)
    (pc sp : Nat) : Option (Except EvalError Bool) :=
  match fuel with
  | 0 => none
  | fuel + 1 =>
    match inst[pc]? with
    | none => some (.error .InvalidPC)
    | some next =>
      match next with
      | .Char c =>
        match (line)[sp]? with
        | some sp_c =>
          if c = sp_c then
            match safe_add pc 1 with
            | none => some (.error .PCOverFlow)
            | some pc' =>
              match safe_add sp 1 with
              | none => some (.error .SPOverFlow)
              | some sp' => eval_depth fuel inst line pc' sp'
          else some (.ok false)
        | none => some (.ok false)
      | .Match => some (.ok true)
      | .Jump addr => eval_depth fuel inst line addr sp
      | .Split addr1 addr2 =>
        match eval_depth fuel inst line addr1 sp with
        | none => none
        | some (.error e) => some (.error e)
        | some (.ok true) => some (.ok true)
        | some (.ok false) =>
          match eval_depth fuel inst line addr2 sp with
          | none => none
          | some (.error e) => some (.error e)
          | some (.ok b) => some (.ok b)

/-- A value that may instead be a panic (`unimplemented!()` aborts). -/
inductive PanicOr (α : Type) where
  | panicked : PanicOr α
  | value : α → PanicOr α
  deriving DecidableEq, Repr

/-- Function `eval_width`: the linear-time strategy.  Its body in evaluator.rs is
`unimplemented!()`, which panics unconditionally. -/
def eval_width (_inst : List Instruction) (_line : List Char)
    (_pc _sp : Nat) : PanicOr (Except EvalError Bool) :=
  .panicked

/-- Function `eval`: strategy dispatch.  `is_depth = true` runs the backtracking
evaluator (fuelled), `is_depth = false` runs `eval_width`.  `none` means the
fuel ran out on the backtracking side. -/
def eval (fuel : Nat) (inst : List Instruction) (line : List Char)
    (is_depth : Bool) : Option (PanicOr (Except EvalError Bool)) :=
  if is_depth then
    (eval_depth fuel inst line 0 0).map .value
  else
    some (eval_width inst line 0 0)

/-- Modelled from the spec: `parser.rs` is absent from src/; per the grammar
in §4.1 a pattern consisting only of literal characters parses to a
`Seq` of `Char` leaves. -/
def literalAST (cs : List Char) : AST := .Seq (cs.map .Char)

mutual

/-- Number of instructions `gen_expr` emits for a tree (one per `Char`, two
extra for `Or`, two extra for `Star`, one extra for `Plus` and `Question`). -/
def astSize : AST → Nat
  | .Char _ => 1
  | .Or e1 e2 => astSize e1 + astSize e2 + 2
  | .Seq es => astSizeList es
  | .Star e => astSize e + 2
  | .Plus e => astSize e + 1
  | .Question e => astSize e + 1

/-- Sum of `astSize` over a list of trees. -/
def astSizeList : List AST → Nat
  | [] => 0
  | e :: rest => astSize e + astSizeList rest

end

/-- Iterated application of `Star` (n times) to the single character `a`;
used to exhibit a tree whose compiled address space exceeds `usize`. -/
def nestStar : Nat → AST
  | 0 => .Char 'a'
  | n + 1 => .Star (nestStar n)

/-- Address operands of one instruction are at most `n`. -/
def InstBound : Instruction → Nat → Prop
  | .Jump a, n => a ≤ n
  | .Split a b, n => a ≤ n ∧ b ≤ n
  | _, _ => True

/-- Every address operand of every instruction in `l` is at most `n`. -/
def OpsLE (l : List Instruction) (n : Nat) : Prop :=
  ∀ (i : Nat) ins, l[i]? = some ins → InstBound ins n

/-- One control-flow edge of a program: `Char` falls through to the next
address, `Jump` goes to its operand, `Split` goes to either operand. -/
inductive Step (inst : List Instruction) : Nat → Nat → Prop where
  | char : ∀ {pc : Nat} {c : Char},
      inst[pc]? = some (.Char c) → Step inst pc (pc + 1)
  | jump : ∀ {pc a : Nat},
      inst[pc]? = some (.Jump a) → Step inst pc a
  | split_left : ∀ {pc a b : Nat},
      inst[pc]? = some (.Split a b) → Step inst pc a
  | split_right : ∀ {pc a b : Nat},
      inst[pc]? = some (.Split a b) → Step inst pc b

/-- An address is reachable from another by some path of control-flow
edges. -/
def Reach (inst : List Instruction) : Nat → Nat → Prop :=
  Relation.ReflTransGen (Step inst)

/-- The compiled program of the pattern `(a?)*`
(tree `Star (Question (Char 'a'))`). -/
def aStarProg : List Instruction :=
  [.Split 1 4, .Split 2 3, .Char 'a', .Jump 0, .Match]

/-- What one `gen_expr` call does to the generator, stated about the ok
result `g'` of `gen_expr ast g` where `n = astSize ast`:
the `pc = insts.len()` invariant is re-established, exactly `n` instructions
are appended, instructions below the entry length are untouched, operand
bounds are maintained, no `Match` is emitted, and in any program `F` that
agrees with `g'` on the freshly generated region the exit address is
reachable from the entry address. -/
structure GenOk (g g' : Generator) (n : Nat) : Prop where
  pc_len : g'.pc = g'.insts.length
  len_eq : g'.insts.length = g.insts.length + n
  prefix_eq : ∀ i, i < g.insts.length → g'.insts[i]? = g.insts[i]?
  ops : OpsLE g.insts g.insts.length → OpsLE g'.insts g'.insts.length
  no_match : ∀ i, g.insts.length ≤ i → g'.insts[i]? ≠ some .Match
  reach : ∀ F : List Instruction,
    (∀ i, g.insts.length ≤ i → i < g'.insts.length → F[i]? = g'.insts[i]?) →
    Relation.ReflTransGen (Step F) g.pc g'.pc

/-! ## Structural induction for `AST` -/

mutual

/-- Structural induction for the nested inductive `AST`, with a membership
hypothesis for the children of `Seq`. -/
theorem AST.recMem {P : AST → Prop}
    (hchar : ∀ c, P (.Char c))
    (hor : ∀ e1 e2, P e1 → P e2 → P (.Or e1 e2))
    (hseq : ∀ es, (∀ e ∈ es, P e) → P (.Seq es))
    (hstar : ∀ e, P e → P (.Star e))
    (hplus : ∀ e, P e → P (.Plus e))
    (hquest : ∀ e, P e → P (.Question e)) : ∀ ast, P ast
  | .Char c => hchar c
  | .Or e1 e2 => hor e1 e2 (AST.recMem hchar hor hseq hstar hplus hquest e1)
      (AST.recMem hchar hor hseq hstar hplus hquest e2)
  | .Seq es => hseq es (AST.recMemList hchar hor hseq hstar hplus hquest es)
  | .Star e => hstar e (AST.recMem hchar hor hseq hstar hplus hquest e)
  | .Plus e => hplus e (AST.recMem hchar hor hseq hstar hplus hquest e)
  | .Question e => hquest e (AST.recMem hchar hor hseq hstar hplus hquest e)

/-- List form of `AST.recMem`. -/
theorem AST.recMemList {P : AST → Prop}
    (hchar : ∀ c, P (.Char c))
    (hor : ∀ e1 e2, P e1 → P e2 → P (.Or e1 e2))
    (hseq : ∀ es, (∀ e ∈ es, P e) → P (.Seq es))
    (hstar : ∀ e, P e → P (.Star e))
    (hplus : ∀ e, P e → P (.Plus e))
    (hquest : ∀ e, P e → P (.Question e)) : ∀ es : List AST, ∀ e ∈ es, P e
  | e0 :: _, _, .head _ => AST.recMem hchar hor hseq hstar hplus hquest e0
  | _ :: rest, e, .tail _ h =>
      AST.recMemList hchar hor hseq hstar hplus hquest rest e h

end

/-! ## Elementary lemmas about the embedded operations -/

theorem except_bind_ok {ε α β : Type} {x : Except ε α} {f : α → Except ε β}
    {b : β} (h : x >>= f = .ok b) : ∃ a, x = .ok a ∧ f a = .ok b := by
  cases x with
  | error e => simp [Bind.bind, Except.bind] at h
  | ok a => exact ⟨a, rfl, by simpa [Bind.bind, Except.bind] using h⟩

theorem except_bind_er {ε α β : Type} {x : Except ε α} {f : α → Except ε β}
    {e : ε} (h : x >>= f = .error e) :
    x = .error e ∨ ∃ a, x = .ok a ∧ f a = .error e := by
  cases x with
  | error e' => left; simpa [Bind.bind, Except.bind] using h
  | ok a => right; exact ⟨a, rfl, by simpa [Bind.bind, Except.bind] using h⟩

theorem inc_pc_ok {g g' : Generator} (h : inc_pc g = .ok g') :
    g' = ⟨g.pc + 1, g.insts⟩ ∧ g.pc + 1 ≤ USIZE_MAX := by
  by_cases hc : g.pc + 1 > USIZE_MAX
  · simp [inc_pc, safe_add, hc] at h
  · simp only [inc_pc, safe_add, hc, if_false, ite_false] at h
    refine ⟨?_, by omega⟩
    cases h
    rfl

theorem inc_pc_er {g : Generator} {e : CodeGenError} (h : inc_pc g = .error e) :
    e = .PCOverFlow ∧ g.pc + 1 > USIZE_MAX := by
  by_cases hc : g.pc + 1 > USIZE_MAX
  · simp only [inc_pc, safe_add, hc, if_true, ite_true] at h
    cases h
    exact ⟨rfl, hc⟩
  · simp [inc_pc, safe_add, hc] at h

theorem inc_pc_of_le {g : Generator} (h : g.pc + 1 ≤ USIZE_MAX) :
    inc_pc g = .ok ⟨g.pc + 1, g.insts⟩ := by
  simp [inc_pc, safe_add, Nat.not_lt.mpr h]

/-! ## Claim C1 -/

/-- C1 counterexample: already on the one-instruction program `[Match]` and
the empty line, the backtracking strategy returns the verdict `true` while
the `is_depth = false` strategy panics (`unimplemented!()`), so the two
strategies do not return the same boolean verdict. -/
theorem c1_strategies_differ :
    eval 1 [Instruction.Match] [] true = some (.value (.ok true)) ∧
    eval 1 [Instruction.Match] [] false = some .panicked ∧
    eval 1 [Instruction.Match] [] false ≠ eval 1 [Instruction.Match] [] true := by
  refine ⟨rfl, rfl, ?_⟩
  intro hcontra
  simp [eval, eval_width, eval_depth] at hcontra

/-- C1 (amended): the linear-time parallel-state strategy does not exist in
the code: for every program, input line and fuel, evaluating with
`is_depth = false` panics (`eval_width` is `unimplemented!()`) instead of
returning a boolean verdict, so no equivalence with backtracking holds. -/
theorem c1_width_always_panics (fuel : Nat) (inst : List Instruction)
    (line : List Char) : eval fuel inst line false = some .panicked := rfl

/-! ## Claim C3 -/

/-- C3: whenever the backtracking evaluator fetches a `Match` instruction it
returns `Ok(true)` immediately, for every line, every program counter and
every input position (any remaining fuel suffices), regardless of how many
unconsumed input characters remain. -/
theorem c3_match_accepts (fuel : Nat) (inst : List Instruction)
    (line : List Char) (pc sp : Nat) (h : inst[pc]? = some .Match) :
    eval_depth (fuel + 1) inst line pc sp = some (.ok true) := by
  simp [eval_depth, h]

/-- Witness for C3 at a concrete input: program `[Match]`, line `"xy"`,
position 5 — trailing input is ignored. -/
theorem c3_match_accepts_witness :
    eval_depth 1 [Instruction.Match] ['x', 'y'] 0 5 = some (.ok true) :=
  c3_match_accepts 0 [Instruction.Match] ['x', 'y'] 0 5 rfl

/-! ## Claim C4 -/

/-- C4: executing `Split(a1, a2)` first attempts the sub-path at `a1` from
the current position `sp`; the whole execution succeeds as soon as that
sub-path succeeds (without consulting `a2`); the `a2` sub-path is attempted
from the same `sp` exactly when the `a1` sub-path fails; and the whole
execution succeeds precisely when one of the two ordered attempts does. -/
theorem c4_split_backtracks (fuel : Nat) (inst : List Instruction)
    (line : List Char) (pc sp a1 a2 : Nat)
    (h : inst[pc]? = some (.Split a1 a2)) :
    (eval_depth (fuel + 1) inst line pc sp = some (.ok true) ↔
      eval_depth fuel inst line a1 sp = some (.ok true) ∨
        (eval_depth fuel inst line a1 sp = some (.ok false) ∧
          eval_depth fuel inst line a2 sp = some (.ok true))) ∧
    (eval_depth fuel inst line a1 sp = some (.ok true) →
      eval_depth (fuel + 1) inst line pc sp = some (.ok true)) ∧
    (eval_depth fuel inst line a1 sp = some (.ok false) →
      eval_depth fuel inst line a2 sp = some (.ok false) →
      eval_depth (fuel + 1) inst line pc sp = some (.ok false)) := by
  simp only [eval_depth, h]
  cases h1 : eval_depth fuel inst line a1 sp with
  | none => simp [h1]
  | some r =>
    cases r with
    | error e => simp [h1]
    | ok b =>
      cases b with
      | true => simp [h1]
      | false =>
        cases h2 : eval_depth fuel inst line a2 sp with
        | none => simp [h1, h2]
        | some r2 =>
          cases r2 with
          | error e => simp [h1, h2]
          | ok b2 => cases b2 <;> simp [h1, h2]

/-- Witness for C4 at a concrete input: program `[Split 1 2, Char 'a',
Match]` (both operands concrete), line `"b"`. -/
theorem c4_split_backtracks_witness :
    (eval_depth 2 [Instruction.Split 1 2, Instruction.Char 'a',
        Instruction.Match] ['b'] 0 0 = some (.ok true) ↔
      eval_depth 1 [Instruction.Split 1 2, Instruction.Char 'a',
          Instruction.Match] ['b'] 1 0 = some (.ok true) ∨
        (eval_depth 1 [Instruction.Split 1 2, Instruction.Char 'a',
            Instruction.Match] ['b'] 1 0 = some (.ok false) ∧
          eval_depth 1 [Instruction.Split 1 2, Instruction.Char 'a',
            Instruction.Match] ['b'] 2 0 = some (.ok true))) ∧
    (eval_depth 1 [Instruction.Split 1 2, Instruction.Char 'a',
        Instruction.Match] ['b'] 1 0 = some (.ok true) →
      eval_depth 2 [Instruction.Split 1 2, Instruction.Char 'a',
        Instruction.Match] ['b'] 0 0 = some (.ok true)) ∧
    (eval_depth 1 [Instruction.Split 1 2, Instruction.Char 'a',
        Instruction.Match] ['b'] 1 0 = some (.ok false) →
      eval_depth 1 [Instruction.Split 1 2, Instruction.Char 'a',
        Instruction.Match] ['b'] 2 0 = some (.ok false) →
      eval_depth 2 [Instruction.Split 1 2, Instruction.Char 'a',
        Instruction.Match] ['b'] 0 0 = some (.ok false)) :=
  c4_split_backtracks 1 [Instruction.Split 1 2, Instruction.Char 'a',
    Instruction.Match] ['b'] 0 0 1 2 rfl

/-! ## Claim C10 -/

/-- C10: the empty-sequence tree compiles to exactly `[Match]`, and that
program accepts every input line (with any positive fuel), including
non-empty lines. -/
theorem c10_empty_pattern_accepts (line : List Char) (fuel : Nat) :
    get_code (AST.Seq []) = .ok [Instruction.Match] ∧
    eval_depth (fuel + 1) [Instruction.Match] line 0 0 = some (.ok true) :=
  ⟨rfl, rfl⟩

/-! ## Claim C6 -/

theorem aStar_loop {n : Nat} (h : eval_depth n aStarProg [] 0 0 = none) :
    eval_depth (n + 3) aStarProg [] 0 0 = none := by
  have h2 : eval_depth (n + 1) aStarProg [] 2 0 = some (.ok false) := rfl
  have h3 : eval_depth (n + 1) aStarProg [] 3 0 =
      eval_depth n aStarProg [] 0 0 := rfl
  have h1 : eval_depth (n + 2) aStarProg [] 1 0 = none := by
    have hunf : eval_depth (n + 2) aStarProg [] 1 0 =
        match eval_depth (n + 1) aStarProg [] 2 0 with
        | none => none
        | some (.error e) => some (.error e)
        | some (.ok true) => some (.ok true)
        | some (.ok false) =>
          match eval_depth (n + 1) aStarProg [] 3 0 with
          | none => none
          | some (.error e) => some (.error e)
          | some (.ok b) => some (.ok b) := rfl
    rw [hunf, h2, h3, h]
  have hunf0 : eval_depth (n + 3) aStarProg [] 0 0 =
      match eval_depth (n + 2) aStarProg [] 1 0 with
      | none => none
      | some (.error e) => some (.error e)
      | some (.ok true) => some (.ok true)
      | some (.ok false) =>
        match eval_depth (n + 2) aStarProg [] 4 0 with
        | none => none
        | some (.error e) => some (.error e)
        | some (.ok b) => some (.ok b) := rfl
  rw [hunf0, h1]

theorem aStarProg_diverges : ∀ n, eval_depth n aStarProg [] 0 0 = none := by
  intro n
  induction n using Nat.strong_induction_on with
  | _ n ih =>
    match n with
    | 0 => rfl
    | 1 => rfl
    | 2 => rfl
    | m + 3 => exact aStar_loop (ih m (by omega))

/-- C6: the tree of the pattern `(a?)*` — a `Star` whose body matches the
empty input — compiles successfully, but the backtracking evaluator started
on the empty line runs out of any amount of fuel: the Rust recursion cycles
through the `Split`/`Jump` loop without consuming input and never returns a
verdict. -/
theorem c6_zero_width_star_diverges :
    get_code (AST.Star (AST.Question (AST.Char 'a'))) = .ok aStarProg ∧
    ∀ fuel, eval_depth fuel aStarProg [] 0 0 = none :=
  ⟨rfl, aStarProg_diverges⟩

/-! ## Claim C2, counterexample part -/

/-- C2 counterexample: the literal-only pattern `"a"` and the longer input
`"ab"`: the compiled program returns `true` although the input differs from
the pattern, because `Match` does not require the input to be exhausted. -/
theorem c2_literal_not_exact :
    get_code (literalAST ['a']) = .ok [Instruction.Char 'a', Instruction.Match] ∧
    eval_depth 3 [Instruction.Char 'a', Instruction.Match] ['a', 'b'] 0 0 =
      some (.ok true) ∧
    (['a', 'b'] : List Char) ≠ ['a'] := by
  refine ⟨rfl, rfl, by simp⟩

/-! ## Single-step unfolding lemmas for `eval_depth` -/

theorem eval_depth_char {inst : List Instruction} {pc : Nat} {c : Char}
    (fuel : Nat) (line : List Char) (sp : Nat)
    (h : inst[pc]? = some (.Char c)) :
    eval_depth (fuel + 1) inst line pc sp =
      match (line)[sp]? with
      | some sp_c =>
        if c = sp_c then
          match safe_add pc 1 with
          | none => some (.error .PCOverFlow)
          | some pc' =>
            match safe_add sp 1 with
            | none => some (.error .SPOverFlow)
            | some sp' => eval_depth fuel inst line pc' sp'
        else some (.ok false)
      | none => some (.ok false) := by
  conv_lhs => rw [eval_depth, h]

theorem eval_depth_found (fuel : Nat) {inst : List Instruction}
    {pc : Nat} (line : List Char) (sp : Nat)
    (h : inst[pc]? = some .Match) :
    eval_depth (fuel + 1) inst line pc sp = some (.ok true) := by
  conv_lhs => rw [eval_depth, h]

theorem eval_depth_jump {inst : List Instruction} {pc a : Nat}
    (fuel : Nat) (line : List Char) (sp : Nat)
    (h : inst[pc]? = some (.Jump a)) :
    eval_depth (fuel + 1) inst line pc sp = eval_depth fuel inst line a sp := by
  conv_lhs => rw [eval_depth, h]

theorem eval_depth_split {inst : List Instruction} {pc a1 a2 : Nat}
    (fuel : Nat) (line : List Char) (sp : Nat)
    (h : inst[pc]? = some (.Split a1 a2)) :
    eval_depth (fuel + 1) inst line pc sp =
      match eval_depth fuel inst line a1 sp with
      | none => none
      | some (.error e) => some (.error e)
      | some (.ok true) => some (.ok true)
      | some (.ok false) =>
        match eval_depth fuel inst line a2 sp with
        | none => none
        | some (.error e) => some (.error e)
        | some (.ok b) => some (.ok b) := by
  conv_lhs => rw [eval_depth, h]

theorem eval_depth_oob {inst : List Instruction} {pc : Nat}
    (fuel : Nat) (line : List Char) (sp : Nat) (h : inst[pc]? = none) :
    eval_depth (fuel + 1) inst line pc sp = some (.error .InvalidPC) := by
  conv_lhs => rw [eval_depth, h]

/-! ## Claim C2, amended part: a literal pattern matches exactly the lines
that start with it -/

theorem gen_seq_literal (cs : List Char) : ∀ g : Generator,
    g.pc = g.insts.length → g.insts.length + cs.length ≤ USIZE_MAX →
    gen_seq (cs.map AST.Char) g =
      .ok ⟨g.insts.length + cs.length, g.insts ++ cs.map Instruction.Char⟩ := by
  induction cs with
  | nil =>
    intro g hpc _
    simp only [List.map_nil, gen_seq, List.append_nil, List.length_nil,
      Nat.add_zero]
    rw [← hpc]
  | cons c cs ih =>
    intro g hpc hle
    have hlen : (pushInst g (.Char c)).pc + 1 ≤ USIZE_MAX := by
      simp only [pushInst, hpc, List.length_cons] at hle ⊢
      omega
    have hinc : inc_pc (pushInst g (.Char c)) =
        .ok ⟨g.insts.length + 1, g.insts ++ [.Char c]⟩ := by
      rw [inc_pc_of_le hlen]
      simp [pushInst, hpc]
    have hih := ih ⟨g.insts.length + 1, g.insts ++ [.Char c]⟩ (by simp)
      (by simp only [List.length_append, List.length_cons, List.length_nil,
            Nat.zero_add] at hle ⊢; omega)
    simp only [List.map_cons, gen_seq, gen_expr, gen_char, hinc, Except.bind,
      Bind.bind] at hih ⊢
    rw [hih]
    simp only [List.length_append, List.length_cons, List.length_nil,
      Nat.zero_add, List.append_assoc, List.singleton_append,
      Except.ok.injEq, Generator.mk.injEq, List.map_cons, and_true]
    omega

theorem get_code_literal (cs : List Char) (h : cs.length + 1 ≤ USIZE_MAX) :
    get_code (literalAST cs) =
      .ok (cs.map Instruction.Char ++ [Instruction.Match]) := by
  have hseq := gen_seq_literal cs ⟨0, []⟩ rfl (by simp; omega)
  simp only [List.length_nil, Nat.zero_add, List.nil_append] at hseq
  have hinc : inc_pc ⟨cs.length, cs.map Instruction.Char⟩ =
      .ok ⟨cs.length + 1, cs.map Instruction.Char⟩ := by
    rw [inc_pc_of_le (by simpa using h)]
  simp [get_code, gen_code, gen_expr, literalAST, hseq, hinc, Except.bind,
    Bind.bind, pushInst, pure, Except.pure]

theorem lit_aux (cs : List Char) : ∀ (pre : List Instruction)
    (line : List Char) (sp fuel : Nat),
    pre.length + cs.length + 1 ≤ USIZE_MAX → line.length ≤ USIZE_MAX →
    eval_depth (fuel + cs.length + 1)
        (pre ++ cs.map Instruction.Char ++ [Instruction.Match]) line
        pre.length sp
      = some (.ok (decide (cs <+: line.drop sp))) := by
  induction cs with
  | nil =>
    intro pre line sp fuel _ _
    have hget : (pre ++ List.map Instruction.Char [] ++
        [Instruction.Match])[pre.length]? = some Instruction.Match := by
      simp
    rw [show fuel + [].length + 1 = fuel + 1 by simp]
    rw [eval_depth_found fuel line sp hget]
    simp [List.nil_prefix]
  | cons c cs ih =>
    intro pre line sp fuel hm hl
    have hget : (pre ++ List.map Instruction.Char (c :: cs) ++
        [Instruction.Match])[pre.length]? = some (Instruction.Char c) := by
      rw [List.append_assoc, List.getElem?_append_right (Nat.le_refl _)]
      simp
    rw [show fuel + (c :: cs).length + 1 = (fuel + cs.length + 1) + 1 by
      simp [List.length_cons]; omega]
    rw [eval_depth_char (fuel + cs.length + 1) line sp hget]
    cases hsp : (line)[sp]? with
    | none =>
      have hle : line.length ≤ sp := List.getElem?_eq_none_iff.mp hsp
      have hdrop : line.drop sp = [] := List.drop_eq_nil_of_le hle
      have hnp : ¬ (c :: cs <+: line.drop sp) := by
        rw [hdrop]
        intro hpre
        exact absurd (List.prefix_nil.mp hpre) (by simp)
      simp [hnp]
    | some d =>
      have hsplt : sp < line.length := (List.getElem?_eq_some_iff.mp hsp).1
      have hdrop : line.drop sp = d :: line.drop (sp + 1) := by
        rw [List.drop_eq_getElem_cons hsplt]
        congr 1
        exact (List.getElem?_eq_some_iff.mp hsp).2
      by_cases hcd : c = d
      · subst hcd
        have hpc1 : safe_add pre.length 1 = some (pre.length + 1) := by
          have hn : ¬ (pre.length + 1 > USIZE_MAX) := by
            simp only [List.length_cons] at hm
            omega
          simp only [safe_add]
          rw [if_neg hn]
        have hsp1 : safe_add sp 1 = some (sp + 1) := by
          have hn : ¬ (sp + 1 > USIZE_MAX) := by omega
          simp only [safe_add]
          rw [if_neg hn]
        have hre : pre ++ List.map Instruction.Char (c :: cs) ++
            [Instruction.Match] = (pre ++ [Instruction.Char c]) ++
              List.map Instruction.Char cs ++ [Instruction.Match] := by
          simp
        have hihm : (pre ++ [Instruction.Char c]).length + cs.length + 1 ≤
            USIZE_MAX := by
          simp only [List.length_append, List.length_cons, List.length_nil,
            Nat.zero_add] at hm ⊢
          omega
        have hih := ih (pre ++ [Instruction.Char c]) line (sp + 1) fuel hihm hl
        have hlen1 : (pre ++ [Instruction.Char c]).length = pre.length + 1 := by
          simp
        rw [hlen1] at hih
        rw [← hre] at hih
        simp only [if_pos rfl, hpc1, hsp1, hih, hdrop]
        simp [List.cons_prefix_cons]
      · have hnp : ¬ (c :: cs <+: line.drop sp) := by
          rw [hdrop]
          intro hpre
          exact hcd (List.cons_prefix_cons.mp hpre).1
        simp [hsp, hcd, hnp]

/-- C2 (amended): for a pattern consisting only of literal characters, the
compiled program returns `true` exactly when the pattern is a
character-by-character prefix of the input line — in particular `true` on
the line equal to the pattern and `false` on every shorter or differing
line, but also `true` on longer lines that begin with the pattern, because
`Match` ignores trailing input. -/
theorem c2_literal_prefix_semantics (cs line : List Char) (fuel : Nat)
    (hcs : cs.length + 1 ≤ USIZE_MAX) (hline : line.length ≤ USIZE_MAX) :
    get_code (literalAST cs) =
      .ok (cs.map Instruction.Char ++ [Instruction.Match]) ∧
    eval_depth (fuel + cs.length + 1)
        (cs.map Instruction.Char ++ [Instruction.Match]) line 0 0
      = some (.ok (decide (cs <+: line))) := by
  refine ⟨get_code_literal cs hcs, ?_⟩
  have hres := lit_aux cs [] line 0 fuel (by simpa using hcs) hline
  simpa using hres

/-- Witness for C2 at concrete inputs: pattern `"ab"`, line `"abc"` — the
pattern is a strict prefix of the line and the verdict is `true`. -/
theorem c2_literal_prefix_semantics_witness :
    get_code (literalAST ['a', 'b']) =
      .ok [Instruction.Char 'a', Instruction.Char 'b', Instruction.Match] ∧
    eval_depth 3 [Instruction.Char 'a', Instruction.Char 'b',
        Instruction.Match] ['a', 'b', 'c'] 0 0
      = some (.ok true) := by
  have h := c2_literal_prefix_semantics ['a', 'b'] ['a', 'b', 'c'] 0
    (by norm_num [USIZE_MAX]) (by norm_num [USIZE_MAX])
  simpa using h

/-! ## Generator invariants -/

theorem getElem?_push_lt {l : List Instruction} {i : Nat} (x : Instruction)
    (h : i < l.length) : (l ++ [x])[i]? = l[i]? :=
  List.getElem?_append_left h

theorem getElem?_push_len (l : List Instruction) (x : Instruction) :
    (l ++ [x])[l.length]? = some x :=
  List.getElem?_concat_length l x

theorem opsLE_mono {l : List Instruction} {n m : Nat} (h : OpsLE l n)
    (hnm : n ≤ m) : OpsLE l m := by
  intro i ins hi
  have := h i ins hi
  cases ins <;> simp only [InstBound] at this ⊢ <;> omega

theorem opsLE_push {l : List Instruction} {n : Nat} {x : Instruction}
    (h : OpsLE l n) (hx : InstBound x n) : OpsLE (l ++ [x]) n := by
  intro i ins hi
  rcases Nat.lt_trichotomy i l.length with hlt | heq | hgt
  · exact h i ins (by rwa [getElem?_push_lt x hlt] at hi)
  · subst heq
    rw [getElem?_push_len] at hi
    cases hi
    exact hx
  · rw [List.getElem?_eq_none_iff.mpr (by simp; omega)] at hi
    cases hi

theorem opsLE_set {l : List Instruction} {n i : Nat} {x : Instruction}
    (h : OpsLE l n) (hx : InstBound x n) : OpsLE (l.set i x) n := by
  intro j ins hj
  by_cases hij : i = j
  · subst hij
    by_cases hlen : i < l.length
    · rw [List.getElem?_set_eq_of_lt x hlen] at hj
      cases hj
      exact hx
    · rw [List.getElem?_eq_none_iff.mpr (by simp; omega)] at hj
      cases hj
  · exact h j ins (by rwa [List.getElem?_set_ne hij] at hj)

theorem genOk_refl {g : Generator} (hpc : g.pc = g.insts.length) :
    GenOk g g 0 where
  pc_len := hpc
  len_eq := by omega
  prefix_eq := fun _ _ => rfl
  ops := fun h => h
  no_match := fun i hi hcon => by
    rw [List.getElem?_eq_none_iff.mpr hi] at hcon
    cases hcon
  reach := fun _ _ => .refl

theorem GenOk.trans {g1 g2 g3 : Generator} {n m : Nat}
    (h1 : GenOk g1 g2 n) (h2 : GenOk g2 g3 m) : GenOk g1 g3 (n + m) where
  pc_len := h2.pc_len
  len_eq := by
    have e1 := h1.len_eq
    have e2 := h2.len_eq
    omega
  prefix_eq := fun i hi => by
    have hle : g1.insts.length ≤ g2.insts.length := by
      have := h1.len_eq; omega
    rw [h2.prefix_eq i (by omega), h1.prefix_eq i hi]
  ops := fun h => h2.ops (h1.ops h)
  no_match := fun i hi hcon => by
    by_cases h2len : g2.insts.length ≤ i
    · exact h2.no_match i h2len hcon
    · rw [h2.prefix_eq i (by omega)] at hcon
      exact h1.no_match i hi hcon
  reach := fun F hF => by
    have hle12 : g1.insts.length ≤ g2.insts.length := by
      have := h1.len_eq; omega
    have hle23 : g2.insts.length ≤ g3.insts.length := by
      have := h2.len_eq; omega
    have r1 := h1.reach F (fun i hi hi2 => by
      rw [hF i hi (by omega), h2.prefix_eq i hi2])
    have r2 := h2.reach F (fun i hi hi2 => hF i (by omega) hi2)
    exact r1.trans r2

theorem patchSplit2_ok {g g' : Generator} {addr target : Nat}
    {e : CodeGenError} (h : patchSplit2 g addr target e = .ok g') :
    ∃ a1 b, g.insts[addr]? = some (.Split a1 b) ∧
      g' = ⟨g.pc, g.insts.set addr (.Split a1 target)⟩ := by
  unfold patchSplit2 at h
  split at h
  next a1 b heq =>
    cases h
    exact ⟨a1, b, heq, rfl⟩
  next => cases h

theorem patchJump_ok {g g' : Generator} {addr target : Nat}
    {e : CodeGenError} (h : patchJump g addr target e = .ok g') :
    ∃ a, g.insts[addr]? = some (.Jump a) ∧
      g' = ⟨g.pc, g.insts.set addr (.Jump target)⟩ := by
  unfold patchJump at h
  split at h
  next a heq =>
    cases h
    exact ⟨a, heq, rfl⟩
  next => cases h

theorem patchSplit2_of_split {g : Generator} {addr : Nat} {a1 b : Nat}
    (target : Nat) (e : CodeGenError)
    (h : g.insts[addr]? = some (.Split a1 b)) :
    patchSplit2 g addr target e =
      .ok ⟨g.pc, g.insts.set addr (.Split a1 target)⟩ := by
  unfold patchSplit2
  rw [h]

theorem patchJump_of_jump {g : Generator} {addr : Nat} {a : Nat}
    (target : Nat) (e : CodeGenError) (h : g.insts[addr]? = some (.Jump a)) :
    patchJump g addr target e = .ok ⟨g.pc, g.insts.set addr (.Jump target)⟩ := by
  unfold patchJump
  rw [h]

theorem genOk_char {g g' : Generator} {c : Char}
    (hpc : g.pc = g.insts.length) (h : gen_char g c = .ok g') :
    GenOk g g' 1 := by
  obtain ⟨hg', _⟩ := inc_pc_ok h
  subst hg'
  refine ⟨?_, ?_, ?_, ?_, ?_, ?_⟩
  · simp [pushInst, hpc]
  · simp [pushInst]
  · intro i hi
    exact getElem?_push_lt _ hi
  · intro hops
    simp only [pushInst, List.length_append, List.length_cons, List.length_nil,
      Nat.zero_add]
    exact opsLE_push (opsLE_mono hops (by omega)) trivial
  · intro i hi hcon
    simp only [pushInst] at hcon
    rcases Nat.lt_trichotomy i g.insts.length with hlt | heq | hgt
    · omega
    · subst heq
      rw [getElem?_push_len] at hcon
      cases hcon
    · rw [List.getElem?_eq_none_iff.mpr (by simp; omega)] at hcon
      cases hcon
  · intro F hF
    have hget : F[g.insts.length]? = some (Instruction.Char c) := by
      have := hF g.insts.length (Nat.le_refl _) (by simp [pushInst])
      rw [this]
      simp [pushInst, getElem?_push_len g.insts (.Char c)]
    have hstep : Step F g.insts.length (g.insts.length + 1) := Step.char hget
    dsimp only [pushInst]
    rw [hpc]
    exact Relation.ReflTransGen.single hstep

theorem genOk_plus {e : AST} {g g' : Generator}
    (IH : ∀ g1 g2 : Generator, g1.pc = g1.insts.length →
      gen_expr e g1 = .ok g2 → GenOk g1 g2 (astSize e))
    (hpc : g.pc = g.insts.length) (h : gen_expr (.Plus e) g = .ok g') :
    GenOk g g' (astSize (.Plus e)) := by
  rw [gen_expr] at h
  obtain ⟨g1, hg1, h⟩ := except_bind_ok h
  obtain ⟨g2, hg2, h⟩ := except_bind_ok h
  obtain ⟨hg2eq, _⟩ := inc_pc_ok hg2
  subst hg2eq
  have H1 := IH g g1 hpc hg1
  have hpc1 : g1.pc = g1.insts.length := H1.pc_len
  have hlen1 : g1.insts.length = g.insts.length + astSize e := H1.len_eq
  have hg' : g' =
      ⟨g1.insts.length + 1, g1.insts ++ [.Split g.pc (g1.insts.length + 1)]⟩ := by
    have hbase : g' = pushInst ⟨g1.pc + 1, g1.insts⟩
        (.Split g.pc ((⟨g1.pc + 1, g1.insts⟩ : Generator)).pc) := by
      simpa [pure, Except.pure] using h.symm
    rw [hbase]
    simp [pushInst, hpc1]
  subst hg'
  refine ⟨?_, ?_, ?_, ?_, ?_, ?_⟩
  · simp
  · simp only [List.length_append, List.length_cons, List.length_nil,
      Nat.zero_add, astSize]
    omega
  · intro i hi
    rw [getElem?_push_lt _ (show i < g1.insts.length by omega)]
    exact H1.prefix_eq i hi
  · intro hops
    simp only [List.length_append, List.length_cons, List.length_nil,
      Nat.zero_add]
    refine opsLE_push (opsLE_mono (H1.ops hops) (by omega)) ?_
    exact ⟨by omega, by omega⟩
  · intro i hi hcon
    simp only at hcon
    rcases Nat.lt_trichotomy i g1.insts.length with hlt | heq | hgt
    · rw [getElem?_push_lt _ hlt] at hcon
      exact H1.no_match i hi hcon
    · subst heq
      rw [getElem?_push_len] at hcon
      cases hcon
    · rw [List.getElem?_eq_none_iff.mpr (by simp; omega)] at hcon
      cases hcon
  · intro F hF
    simp only [List.length_append, List.length_cons, List.length_nil,
      Nat.zero_add] at hF
    have hbody := H1.reach F (fun i hle hlt => by
      rw [hF i hle (by omega),
        getElem?_push_lt _ (show i < g1.insts.length by omega)])
    rw [hpc1] at hbody
    have hsplit : F[g1.insts.length]? =
        some (.Split g.pc (g1.insts.length + 1)) := by
      rw [hF g1.insts.length (by omega) (by omega)]
      exact getElem?_push_len _ _
    exact Relation.ReflTransGen.tail hbody (Step.split_right hsplit)

theorem genOk_question {e : AST} {g g' : Generator}
    (IH : ∀ g1 g2 : Generator, g1.pc = g1.insts.length →
      gen_expr e g1 = .ok g2 → GenOk g1 g2 (astSize e))
    (hpc : g.pc = g.insts.length) (h : gen_expr (.Question e) g = .ok g') :
    GenOk g g' (astSize (.Question e)) := by
  rw [gen_expr] at h
  obtain ⟨g1, hg1, h⟩ := except_bind_ok h
  obtain ⟨hg1eq, _⟩ := inc_pc_ok hg1
  subst hg1eq
  obtain ⟨g3, hg3, h⟩ := except_bind_ok h
  have hpush : pushInst ⟨g.pc + 1, g.insts⟩
      (.Split ((⟨g.pc + 1, g.insts⟩ : Generator)).pc 0) =
      ⟨g.insts.length + 1, g.insts ++ [.Split (g.insts.length + 1) 0]⟩ := by
    simp [pushInst, hpc]
  rw [hpush] at hg3
  have H1 := IH _ g3 (by simp) hg3
  have hpc3 : g3.pc = g3.insts.length := H1.pc_len
  have hlen3 : g3.insts.length = g.insts.length + 1 + astSize e := by
    simpa using H1.len_eq
  have hsite : g3.insts[g.insts.length]? =
      some (.Split (g.insts.length + 1) 0) := by
    rw [H1.prefix_eq g.insts.length (by simp)]
    exact getElem?_push_len _ _
  rw [hpc] at h
  obtain ⟨a1, b, hab, hg'⟩ := patchSplit2_ok h
  rw [hsite] at hab
  simp only [Option.some.injEq, Instruction.Split.injEq] at hab
  obtain ⟨ha1, -⟩ := hab
  subst ha1
  subst hg'
  refine ⟨?_, ?_, ?_, ?_, ?_, ?_⟩
  · simp [hpc3]
  · simp only [List.length_set, astSize]
    omega
  · intro i hi
    simp only
    rw [List.getElem?_set_ne (show g.insts.length ≠ i by omega)]
    rw [H1.prefix_eq i (by simp; omega)]
    exact getElem?_push_lt _ (by omega)
  · intro hops
    simp only [List.length_set]
    have hops2 : OpsLE (g.insts ++ [.Split (g.insts.length + 1) 0])
        (g.insts.length + 1) := by
      refine opsLE_push (opsLE_mono hops (by omega)) ?_
      exact ⟨by omega, by omega⟩
    have hops3 : OpsLE g3.insts g3.insts.length := by
      have := H1.ops (by simpa using hops2)
      simpa using this
    refine opsLE_set hops3 ?_
    rw [hpc3]
    exact ⟨by omega, by omega⟩
  · intro i hi hcon
    simp only at hcon
    by_cases hiL : g.insts.length = i
    · subst hiL
      rw [List.getElem?_set_eq_of_lt _ (by omega)] at hcon
      cases hcon
    · rw [List.getElem?_set_ne hiL] at hcon
      exact H1.no_match i (by simp; omega) hcon
  · intro F hF
    simp only [List.length_set] at hF
    have hsplit : F[g.insts.length]? =
        some (.Split (g.insts.length + 1) g3.pc) := by
      rw [hF g.insts.length (by omega) (by omega)]
      exact List.getElem?_set_eq_of_lt _ (by omega)
    have hstep : Step F g.insts.length g3.pc := Step.split_right hsplit
    show Relation.ReflTransGen (Step F) g.pc g3.pc
    rw [hpc]
    exact Relation.ReflTransGen.single hstep

theorem genOk_star {e : AST} {g g' : Generator}
    (IH : ∀ g1 g2 : Generator, g1.pc = g1.insts.length →
      gen_expr e g1 = .ok g2 → GenOk g1 g2 (astSize e))
    (hpc : g.pc = g.insts.length) (h : gen_expr (.Star e) g = .ok g') :
    GenOk g g' (astSize (.Star e)) := by
  rw [gen_expr] at h
  obtain ⟨g1, hg1, h⟩ := except_bind_ok h
  obtain ⟨hg1eq, _⟩ := inc_pc_ok hg1
  subst hg1eq
  obtain ⟨g3, hg3, h⟩ := except_bind_ok h
  have hpush : pushInst ⟨g.pc + 1, g.insts⟩
      (.Split ((⟨g.pc + 1, g.insts⟩ : Generator)).pc 0) =
      ⟨g.insts.length + 1, g.insts ++ [.Split (g.insts.length + 1) 0]⟩ := by
    simp [pushInst, hpc]
  rw [hpush] at hg3
  have H1 := IH _ g3 (by simp) hg3
  have hpc3 : g3.pc = g3.insts.length := H1.pc_len
  have hlen3 : g3.insts.length = g.insts.length + 1 + astSize e := by
    simpa using H1.len_eq
  obtain ⟨g4, hg4, h⟩ := except_bind_ok h
  obtain ⟨hg4eq, _⟩ := inc_pc_ok hg4
  subst hg4eq
  -- after the push of `Jump l1` (l1 = g.pc)
  have hpush2 : pushInst ⟨g3.pc + 1, g3.insts⟩ (.Jump g.pc) =
      ⟨g3.insts.length + 1, g3.insts ++ [.Jump g.pc]⟩ := by
    simp [pushInst, hpc3]
  rw [hpush2] at h
  rw [hpc] at h
  have hsite : (g3.insts ++ [Instruction.Jump g.insts.length])[g.insts.length]? =
      some (.Split (g.insts.length + 1) 0) := by
    rw [getElem?_push_lt _ (by omega)]
    rw [H1.prefix_eq g.insts.length (by simp)]
    exact getElem?_push_len _ _
  obtain ⟨a1, b, hab, hg'⟩ := patchSplit2_ok h
  rw [hsite] at hab
  simp only [Option.some.injEq, Instruction.Split.injEq] at hab
  obtain ⟨ha1, -⟩ := hab
  subst ha1
  subst hg'
  refine ⟨?_, ?_, ?_, ?_, ?_, ?_⟩
  · simp
  · simp only [List.length_set, List.length_append, List.length_cons,
      List.length_nil, Nat.zero_add, astSize]
    omega
  · intro i hi
    simp only
    rw [List.getElem?_set_ne (show g.insts.length ≠ i by omega)]
    rw [getElem?_push_lt _ (by omega)]
    rw [H1.prefix_eq i (by simp; omega)]
    exact getElem?_push_lt _ (by omega)
  · intro hops
    simp only [List.length_set, List.length_append, List.length_cons,
      List.length_nil, Nat.zero_add]
    have hops2 : OpsLE (g.insts ++ [.Split (g.insts.length + 1) 0])
        (g.insts.length + 1) := by
      refine opsLE_push (opsLE_mono hops (by omega)) ?_
      exact ⟨by omega, by omega⟩
    have hops3 : OpsLE g3.insts g3.insts.length := by
      have := H1.ops (by simpa using hops2)
      simpa using this
    have hops4 : OpsLE (g3.insts ++ [.Jump g.insts.length])
        (g3.insts.length + 1) := by
      refine opsLE_push (opsLE_mono hops3 (by omega)) ?_
      simp only [InstBound]
      omega
    refine opsLE_set hops4 ?_
    exact ⟨by omega, by omega⟩
  · intro i hi hcon
    simp only at hcon
    by_cases hiL : g.insts.length = i
    · subst hiL
      rw [List.getElem?_set_eq_of_lt _ (by simp; omega)] at hcon
      cases hcon
    · rw [List.getElem?_set_ne hiL] at hcon
      rcases Nat.lt_trichotomy i g3.insts.length with hlt | heq | hgt
      · rw [getElem?_push_lt _ hlt] at hcon
        exact H1.no_match i (by simp; omega) hcon
      · subst heq
        rw [getElem?_push_len] at hcon
        cases hcon
      · rw [List.getElem?_eq_none_iff.mpr (by simp; omega)] at hcon
        cases hcon
  · intro F hF
    simp only [List.length_set, List.length_append, List.length_cons,
      List.length_nil, Nat.zero_add] at hF
    have hsplit : F[g.insts.length]? =
        some (.Split (g.insts.length + 1) (g3.insts.length + 1)) := by
      rw [hF g.insts.length (by omega) (by omega)]
      exact List.getElem?_set_eq_of_lt _ (by simp; omega)
    have hstep : Step F g.insts.length (g3.insts.length + 1) :=
      Step.split_right hsplit
    show Relation.ReflTransGen (Step F) g.pc (g3.insts.length + 1)
    rw [hpc]
    exact Relation.ReflTransGen.single hstep

theorem genOk_or {e1 e2 : AST} {g g' : Generator}
    (IH1 : ∀ g1 g2 : Generator, g1.pc = g1.insts.length →
      gen_expr e1 g1 = .ok g2 → GenOk g1 g2 (astSize e1))
    (IH2 : ∀ g1 g2 : Generator, g1.pc = g1.insts.length →
      gen_expr e2 g1 = .ok g2 → GenOk g1 g2 (astSize e2))
    (hpc : g.pc = g.insts.length) (h : gen_expr (.Or e1 e2) g = .ok g') :
    GenOk g g' (astSize (.Or e1 e2)) := by
  rw [gen_expr] at h
  obtain ⟨g1, hg1, h⟩ := except_bind_ok h
  obtain ⟨hg1eq, _⟩ := inc_pc_ok hg1
  subst hg1eq
  have hpush : pushInst ⟨g.pc + 1, g.insts⟩
      (Instruction.Split ((⟨g.pc + 1, g.insts⟩ : Generator)).pc 0) =
      ⟨g.insts.length + 1, g.insts ++ [Instruction.Split (g.insts.length + 1) 0]⟩ := by
    simp [pushInst, hpc]
  rw [hpush] at h
  obtain ⟨g3, hg3, h⟩ := except_bind_ok h
  have H1 := IH1 _ g3 (by simp) hg3
  have hpc3 : g3.pc = g3.insts.length := H1.pc_len
  have hlen3 : g3.insts.length = g.insts.length + 1 + astSize e1 := by
    simpa using H1.len_eq
  obtain ⟨g5, hg5, h⟩ := except_bind_ok h
  obtain ⟨hg5eq, _⟩ := inc_pc_ok hg5
  have hg5eq2 : g5 = ⟨g3.insts.length + 1, g3.insts ++ [Instruction.Jump 0]⟩ := by
    rw [hg5eq]
    simp [pushInst, hpc3]
  subst hg5eq2
  rw [hpc, hpc3] at h
  obtain ⟨g6, hg6, h⟩ := except_bind_ok h
  have hsite1 : (g3.insts ++ [Instruction.Jump 0])[g.insts.length]? =
      some (Instruction.Split (g.insts.length + 1) 0) := by
    rw [getElem?_push_lt _ (by omega)]
    rw [H1.prefix_eq g.insts.length (by simp)]
    exact getElem?_push_len _ _
  obtain ⟨a1, b, hab, hg6eq⟩ := patchSplit2_ok hg6
  have hab2 : (g3.insts ++ [Instruction.Jump 0])[g.insts.length]? =
      some (Instruction.Split a1 b) := hab
  rw [hsite1] at hab2
  simp only [Option.some.injEq, Instruction.Split.injEq] at hab2
  obtain ⟨ha1, -⟩ := hab2
  subst ha1
  have hg6eq2 : g6 = ⟨g3.insts.length + 1, (g3.insts ++ [Instruction.Jump 0]).set
      g.insts.length (Instruction.Split (g.insts.length + 1) (g3.insts.length + 1))⟩ := by
    rw [hg6eq]
  subst hg6eq2
  obtain ⟨g7, hg7, h⟩ := except_bind_ok h
  have H2 := IH2 _ g7 (by simp) hg7
  have hpc7 : g7.pc = g7.insts.length := H2.pc_len
  have hlen7 : g7.insts.length = g3.insts.length + 1 + astSize e2 := by
    simpa using H2.len_eq
  have hg6len : ((g3.insts ++ [Instruction.Jump 0]).set g.insts.length
      (Instruction.Split (g.insts.length + 1) (g3.insts.length + 1))).length =
      g3.insts.length + 1 := by
    simp
  have hsite2 : g7.insts[g3.insts.length]? = some (Instruction.Jump 0) := by
    rw [H2.prefix_eq g3.insts.length (by simp)]
    show ((g3.insts ++ [Instruction.Jump 0]).set g.insts.length
      (Instruction.Split (g.insts.length + 1) (g3.insts.length + 1)))[g3.insts.length]?
        = some (Instruction.Jump 0)
    rw [List.getElem?_set_ne (show g.insts.length ≠ g3.insts.length by omega)]
    exact getElem?_push_len _ _
  obtain ⟨a, haj, hg'⟩ := patchJump_ok h
  have hg'2 : g' = ⟨g7.insts.length,
      g7.insts.set g3.insts.length (Instruction.Jump g7.insts.length)⟩ := by
    rw [hg', hpc7]
  subst hg'2
  refine ⟨?_, ?_, ?_, ?_, ?_, ?_⟩
  · simp
  · simp only [List.length_set, astSize]
    omega
  · intro i hi
    show (g7.insts.set g3.insts.length (Instruction.Jump g7.insts.length))[i]? =
      g.insts[i]?
    rw [List.getElem?_set_ne (show g3.insts.length ≠ i by omega)]
    rw [H2.prefix_eq i (by rw [hg6len]; omega)]
    show ((g3.insts ++ [Instruction.Jump 0]).set g.insts.length
      (Instruction.Split (g.insts.length + 1) (g3.insts.length + 1)))[i]? = g.insts[i]?
    rw [List.getElem?_set_ne (show g.insts.length ≠ i by omega)]
    rw [getElem?_push_lt _ (by omega)]
    rw [H1.prefix_eq i (by simp; omega)]
    exact getElem?_push_lt _ (by omega)
  · intro hops
    simp only [List.length_set]
    have o2 : OpsLE (g.insts ++ [Instruction.Split (g.insts.length + 1) 0])
        (g.insts.length + 1) := by
      refine opsLE_push (opsLE_mono hops (by omega)) ?_
      exact ⟨by omega, by omega⟩
    have o3 : OpsLE g3.insts g3.insts.length := by
      have := H1.ops (by simpa using o2)
      simpa using this
    have o4 : OpsLE (g3.insts ++ [Instruction.Jump 0]) (g3.insts.length + 1) := by
      refine opsLE_push (opsLE_mono o3 (by omega)) ?_
      simp only [InstBound]
      omega
    have o5 : OpsLE ((g3.insts ++ [Instruction.Jump 0]).set g.insts.length
        (Instruction.Split (g.insts.length + 1) (g3.insts.length + 1)))
        (g3.insts.length + 1) := by
      refine opsLE_set o4 ?_
      exact ⟨by omega, by omega⟩
    have o6 : OpsLE g7.insts g7.insts.length := by
      have := H2.ops (by rw [hg6len]; exact o5)
      simpa using this
    refine opsLE_set o6 ?_
    simp only [InstBound]
    omega
  · intro i hi hcon
    have hcon2 : (g7.insts.set g3.insts.length
        (Instruction.Jump g7.insts.length))[i]? = some .Match := hcon
    by_cases hiJ : g3.insts.length = i
    · subst hiJ
      rw [List.getElem?_set_eq_of_lt _ (by omega)] at hcon2
      cases hcon2
    · rw [List.getElem?_set_ne hiJ] at hcon2
      by_cases hi6 : g3.insts.length + 1 ≤ i
      · exact H2.no_match i (by rw [hg6len]; omega) hcon2
      · rw [H2.prefix_eq i (by rw [hg6len]; omega)] at hcon2
        have hcon3 : ((g3.insts ++ [Instruction.Jump 0]).set g.insts.length
            (Instruction.Split (g.insts.length + 1) (g3.insts.length + 1)))[i]? =
            some .Match := hcon2
        by_cases hiL : g.insts.length = i
        · subst hiL
          rw [List.getElem?_set_eq_of_lt _ (by simp; omega)] at hcon3
          cases hcon3
        · rw [List.getElem?_set_ne hiL] at hcon3
          rw [getElem?_push_lt _ (by omega)] at hcon3
          exact H1.no_match i (by simp; omega) hcon3
  · intro F hF
    simp only [List.length_set] at hF
    have f_at_L : F[g.insts.length]? =
        some (Instruction.Split (g.insts.length + 1) (g3.insts.length + 1)) := by
      rw [hF g.insts.length (by omega) (by omega)]
      rw [List.getElem?_set_ne (show g3.insts.length ≠ g.insts.length by
        omega)]
      rw [H2.prefix_eq g.insts.length (by rw [hg6len]; omega)]
      exact List.getElem?_set_eq_of_lt _ (by simp; omega)
    have f_at_J : F[g3.insts.length]? = some (Instruction.Jump g7.insts.length) := by
      rw [hF g3.insts.length (by omega) (by omega)]
      exact List.getElem?_set_eq_of_lt _ (by omega)
    have r1 : Relation.ReflTransGen (Step F) (g.insts.length + 1)
        g3.insts.length := by
      have := H1.reach F (fun i hle hlt => by
        simp only [List.length_append, List.length_cons, List.length_nil,
          Nat.zero_add] at hle hlt
        rw [hF i (by omega) (by omega)]
        rw [List.getElem?_set_ne (show g3.insts.length ≠ i by omega)]
        rw [H2.prefix_eq i (by rw [hg6len]; omega)]
        rw [List.getElem?_set_ne (show g.insts.length ≠ i by omega)]
        exact getElem?_push_lt _ (by omega))
      rw [hpc3] at this
      simpa using this
    have step0 : Step F g.insts.length (g.insts.length + 1) :=
      Step.split_left f_at_L
    have stepJ : Step F g3.insts.length g7.insts.length := Step.jump f_at_J
    show Relation.ReflTransGen (Step F) g.pc g7.insts.length
    rw [hpc]
    exact ((Relation.ReflTransGen.single step0).trans r1).tail stepJ

theorem genOk_seq {es : List AST} {g g' : Generator}
    (IH : ∀ e ∈ es, ∀ g1 g2 : Generator, g1.pc = g1.insts.length →
      gen_expr e g1 = .ok g2 → GenOk g1 g2 (astSize e))
    (hpc : g.pc = g.insts.length) (h : gen_seq es g = .ok g') :
    GenOk g g' (astSizeList es) := by
  induction es generalizing g with
  | nil =>
    rw [gen_seq] at h
    cases h
    exact genOk_refl hpc
  | cons e rest ih =>
    rw [gen_seq] at h
    obtain ⟨g1, hg1, h⟩ := except_bind_ok h
    have H1 := IH e (by simp) g g1 hpc hg1
    have H2 := ih (fun e2 he2 => IH e2 (by simp [he2])) H1.pc_len h
    have := H1.trans H2
    simpa [astSizeList] using this

theorem gen_expr_ok : ∀ ast : AST, ∀ g g' : Generator,
    g.pc = g.insts.length → gen_expr ast g = .ok g' →
    GenOk g g' (astSize ast) := by
  refine AST.recMem ?_ ?_ ?_ ?_ ?_ ?_
  · intro c g g' hpc h
    rw [gen_expr] at h
    exact genOk_char hpc h
  · intro e1 e2 IH1 IH2 g g' hpc h
    exact genOk_or IH1 IH2 hpc h
  · intro es IH g g' hpc h
    rw [gen_expr] at h
    exact genOk_seq IH hpc h
  · intro e IH g g' hpc h
    exact genOk_star IH hpc h
  · intro e IH g g' hpc h
    exact genOk_plus IH hpc h
  · intro e IH g g' hpc h
    exact genOk_question IH hpc h

/-- Any failure of `gen_expr` is the `PCOverFlow` error, and it can only
happen when the program would outgrow the address space: the defensive
patch failures are unreachable. -/
theorem gen_expr_er : ∀ ast : AST, ∀ (g : Generator) (e : CodeGenError),
    g.pc = g.insts.length → gen_expr ast g = .error e →
    e = .PCOverFlow ∧ USIZE_MAX < g.insts.length + astSize ast := by
  have hseq : ∀ (es : List AST),
      (∀ a ∈ es, ∀ (g : Generator) (e : CodeGenError),
        g.pc = g.insts.length → gen_expr a g = .error e →
        e = .PCOverFlow ∧ USIZE_MAX < g.insts.length + astSize a) →
      ∀ (g : Generator) (e : CodeGenError), g.pc = g.insts.length →
        gen_seq es g = .error e →
        e = .PCOverFlow ∧ USIZE_MAX < g.insts.length + astSizeList es := by
    intro es
    induction es with
    | nil =>
      intro _ g e _ h
      rw [gen_seq] at h
      cases h
    | cons a rest ih =>
      intro IH g e hpc h
      rw [gen_seq] at h
      rcases except_bind_er h with ha | ⟨g1, hg1, h⟩
      · obtain ⟨he, hgt⟩ := IH a (by simp) g e hpc ha
        refine ⟨he, ?_⟩
        simp only [astSizeList]
        omega
      · have H1 := gen_expr_ok a g g1 hpc hg1
        have hlen1 := H1.len_eq
        obtain ⟨he, hgt⟩ := ih (fun a2 ha2 => IH a2 (by simp [ha2]))
          g1 e H1.pc_len h
        refine ⟨he, ?_⟩
        simp only [astSizeList]
        omega
  refine AST.recMem ?_ ?_ ?_ ?_ ?_ ?_
  · intro c g e hpc h
    rw [gen_expr] at h
    obtain ⟨he, hgt⟩ := inc_pc_er h
    refine ⟨he, ?_⟩
    simp only [pushInst, hpc] at hgt
    simp only [astSize]
    omega
  · intro e1 e2 IH1 IH2 g e hpc h
    rw [gen_expr] at h
    simp only [astSize]
    rcases except_bind_er h with hinc | ⟨g1, hg1, h⟩
    · obtain ⟨he, hgt⟩ := inc_pc_er hinc
      exact ⟨he, by omega⟩
    · obtain ⟨hg1eq, _⟩ := inc_pc_ok hg1
      subst hg1eq
      have hpush : pushInst ⟨g.pc + 1, g.insts⟩
          (.Split ((⟨g.pc + 1, g.insts⟩ : Generator)).pc 0) =
          ⟨g.insts.length + 1, g.insts ++ [Instruction.Split
            (g.insts.length + 1) 0]⟩ := by
        simp [pushInst, hpc]
      rw [hpush] at h
      rcases except_bind_er h with he1 | ⟨g3, hg3, h⟩
      · obtain ⟨he, hgt⟩ := IH1 _ e (by simp) he1
        simp only [List.length_append, List.length_cons, List.length_nil,
          Nat.zero_add] at hgt
        exact ⟨he, by omega⟩
      · have H1 := gen_expr_ok e1 _ g3 (by simp) hg3
        have hpc3 : g3.pc = g3.insts.length := H1.pc_len
        have hlen3 : g3.insts.length = g.insts.length + 1 + astSize e1 := by
          simpa using H1.len_eq
        rcases except_bind_er h with hinc2 | ⟨g5, hg5, h⟩
        · obtain ⟨he, hgt⟩ := inc_pc_er hinc2
          simp only [pushInst, hpc3] at hgt
          exact ⟨he, by omega⟩
        · obtain ⟨hg5eq, _⟩ := inc_pc_ok hg5
          have hg5eq2 : g5 = ⟨g3.insts.length + 1,
              g3.insts ++ [Instruction.Jump 0]⟩ := by
            rw [hg5eq]
            simp [pushInst, hpc3]
          subst hg5eq2
          rw [hpc, hpc3] at h
          rcases except_bind_er h with hpatch | ⟨g6, hg6, h⟩
          · have hsite1 : (g3.insts ++
                [Instruction.Jump 0])[g.insts.length]? =
                some (Instruction.Split (g.insts.length + 1) 0) := by
              rw [getElem?_push_lt _ (by omega)]
              rw [H1.prefix_eq g.insts.length (by simp)]
              exact getElem?_push_len _ _
            rw [patchSplit2_of_split _ _ hsite1] at hpatch
            cases hpatch
          · obtain ⟨a1, b, hab, hg6eq⟩ := patchSplit2_ok hg6
            have hg6eq2 : g6 = ⟨g3.insts.length + 1,
                (g3.insts ++ [Instruction.Jump 0]).set g.insts.length
                  (Instruction.Split a1 (g3.insts.length + 1))⟩ := by
              rw [hg6eq]
            subst hg6eq2
            rcases except_bind_er h with he2 | ⟨g7, hg7, h⟩
            · obtain ⟨he, hgt⟩ := IH2 _ e (by simp) he2
              simp only [List.length_set, List.length_append,
                List.length_cons, List.length_nil, Nat.zero_add] at hgt
              exact ⟨he, by omega⟩
            · have H2 := gen_expr_ok e2 _ g7 (by simp) hg7
              have hsite2 : g7.insts[g3.insts.length]? =
                  some (Instruction.Jump 0) := by
                rw [H2.prefix_eq g3.insts.length (by simp)]
                rw [List.getElem?_set_ne
                  (show g.insts.length ≠ g3.insts.length by omega)]
                exact getElem?_push_len _ _
              rw [patchJump_of_jump _ _ hsite2] at h
              cases h
  · intro es IH g e hpc h
    rw [gen_expr] at h
    exact hseq es IH g e hpc h
  · intro e1 IH g e hpc h
    rw [gen_expr] at h
    simp only [astSize]
    rcases except_bind_er h with hinc | ⟨g1, hg1, h⟩
    · obtain ⟨he, hgt⟩ := inc_pc_er hinc
      exact ⟨he, by omega⟩
    · obtain ⟨hg1eq, _⟩ := inc_pc_ok hg1
      subst hg1eq
      have hpush : pushInst ⟨g.pc + 1, g.insts⟩
          (.Split ((⟨g.pc + 1, g.insts⟩ : Generator)).pc 0) =
          ⟨g.insts.length + 1, g.insts ++ [Instruction.Split
            (g.insts.length + 1) 0]⟩ := by
        simp [pushInst, hpc]
      rw [hpush] at h
      rcases except_bind_er h with he1 | ⟨g3, hg3, h⟩
      · obtain ⟨he, hgt⟩ := IH _ e (by simp) he1
        simp only [List.length_append, List.length_cons, List.length_nil,
          Nat.zero_add] at hgt
        exact ⟨he, by omega⟩
      · have H1 := gen_expr_ok e1 _ g3 (by simp) hg3
        have hpc3 : g3.pc = g3.insts.length := H1.pc_len
        have hlen3 : g3.insts.length = g.insts.length + 1 + astSize e1 := by
          simpa using H1.len_eq
        rcases except_bind_er h with hinc2 | ⟨g5, hg5, h⟩
        · obtain ⟨he, hgt⟩ := inc_pc_er hinc2
          exact ⟨he, by omega⟩
        · obtain ⟨hg5eq, _⟩ := inc_pc_ok hg5
          subst hg5eq
          have hpush2 : pushInst ⟨g3.pc + 1, g3.insts⟩ (.Jump g.pc) =
              ⟨g3.insts.length + 1, g3.insts ++ [Instruction.Jump g.pc]⟩ := by
            simp [pushInst, hpc3]
          rw [hpush2, hpc] at h
          have hsite : (g3.insts ++
              [Instruction.Jump g.insts.length])[g.insts.length]? =
              some (Instruction.Split (g.insts.length + 1) 0) := by
            rw [getElem?_push_lt _ (by omega)]
            rw [H1.prefix_eq g.insts.length (by simp)]
            exact getElem?_push_len _ _
          rw [patchSplit2_of_split _ _ hsite] at h
          cases h
  · intro e1 IH g e hpc h
    rw [gen_expr] at h
    simp only [astSize]
    rcases except_bind_er h with he1 | ⟨g1, hg1, h⟩
    · obtain ⟨he, hgt⟩ := IH g e hpc he1
      exact ⟨he, by omega⟩
    · have H1 := gen_expr_ok e1 g g1 hpc hg1
      have hlen1 := H1.len_eq
      rcases except_bind_er h with hinc | ⟨g2, hg2, h⟩
      · obtain ⟨he, hgt⟩ := inc_pc_er hinc
        have := H1.pc_len
        exact ⟨he, by omega⟩
      · simp only [pure, Except.pure] at h
        cases h
  · intro e1 IH g e hpc h
    rw [gen_expr] at h
    simp only [astSize]
    rcases except_bind_er h with hinc | ⟨g1, hg1, h⟩
    · obtain ⟨he, hgt⟩ := inc_pc_er hinc
      exact ⟨he, by omega⟩
    · obtain ⟨hg1eq, _⟩ := inc_pc_ok hg1
      subst hg1eq
      have hpush : pushInst ⟨g.pc + 1, g.insts⟩
          (.Split ((⟨g.pc + 1, g.insts⟩ : Generator)).pc 0) =
          ⟨g.insts.length + 1, g.insts ++ [Instruction.Split
            (g.insts.length + 1) 0]⟩ := by
        simp [pushInst, hpc]
      rw [hpush] at h
      rcases except_bind_er h with he1 | ⟨g3, hg3, h⟩
      · obtain ⟨he, hgt⟩ := IH _ e (by simp) he1
        simp only [List.length_append, List.length_cons, List.length_nil,
          Nat.zero_add] at hgt
        exact ⟨he, by omega⟩
      · have H1 := gen_expr_ok e1 _ g3 (by simp) hg3
        have hsite : g3.insts[g.insts.length]? =
            some (Instruction.Split (g.insts.length + 1) 0) := by
          rw [H1.prefix_eq g.insts.length (by simp)]
          exact getElem?_push_len _ _
        rw [hpc] at h
        rw [patchSplit2_of_split _ _ hsite] at h
        cases h

theorem opsLE_nil (n : Nat) : OpsLE [] n := by
  intro i ins h
  simp at h

theorem safe_add_some {a b c : Nat} (h : safe_add a b = some c) : c = a + b := by
  unfold safe_add at h
  split at h
  · cases h
  · cases h
    rfl

theorem get_code_ok {ast : AST} {prog : List Instruction}
    (h : get_code ast = .ok prog) :
    ∃ body : Generator, gen_expr ast ⟨0, []⟩ = .ok body ∧
      prog = body.insts ++ [.Match] ∧ body.pc = body.insts.length ∧
      body.insts.length = astSize ast ∧ astSize ast + 1 ≤ USIZE_MAX := by
  unfold get_code at h
  cases hgc : gen_code ast { pc := 0, insts := [] } with
  | error e =>
    rw [hgc] at h
    cases h
  | ok gF =>
    rw [hgc] at h
    cases h
    unfold gen_code at hgc
    obtain ⟨g1, h1, hgc⟩ := except_bind_ok hgc
    obtain ⟨g2, h2, hgc⟩ := except_bind_ok hgc
    obtain ⟨hg2eq, hb⟩ := inc_pc_ok h2
    subst hg2eq
    have H := gen_expr_ok ast ⟨0, []⟩ g1 rfl h1
    have hpc1 : g1.pc = g1.insts.length := H.pc_len
    have hlen1 : g1.insts.length = astSize ast := by
      simpa using H.len_eq
    have hgFeq : gF = pushInst ⟨g1.pc + 1, g1.insts⟩ .Match := by
      simpa [pure, Except.pure] using hgc.symm
    refine ⟨g1, h1, ?_, hpc1, hlen1, by omega⟩
    rw [hgFeq]
    simp [pushInst]

theorem get_code_er {ast : AST} {e : CodeGenError}
    (h : get_code ast = .error e) :
    e = .PCOverFlow ∧ USIZE_MAX < astSize ast + 1 := by
  unfold get_code at h
  cases hgc : gen_code ast { pc := 0, insts := [] } with
  | ok gF =>
    rw [hgc] at h
    cases h
  | error e2 =>
    rw [hgc] at h
    cases h
    unfold gen_code at hgc
    rcases except_bind_er hgc with h1 | ⟨g1, h1, h2⟩
    · obtain ⟨he, hgt⟩ := gen_expr_er ast ⟨0, []⟩ _ rfl h1
      refine ⟨he, ?_⟩
      simp only [List.length_nil, Nat.zero_add] at hgt
      omega
    · have H := gen_expr_ok ast ⟨0, []⟩ g1 rfl h1
      have hlen1 : g1.insts.length = astSize ast := by
        simpa using H.len_eq
      rcases except_bind_er h2 with hinc | ⟨g2, hinc, hpure⟩
      · obtain ⟨he, hgt⟩ := inc_pc_er hinc
        have := H.pc_len
        exact ⟨he, by omega⟩
      · simp only [pure, Except.pure] at hpure
        cases hpure

theorem get_code_facts {ast : AST} {prog : List Instruction}
    (h : get_code ast = .ok prog) :
    prog.length = astSize ast + 1 ∧
    OpsLE prog (astSize ast) ∧
    prog[astSize ast]? = some .Match ∧
    (∀ i : Nat, prog[i]? = some .Match → i = astSize ast) ∧
    Reach prog 0 (astSize ast) := by
  obtain ⟨body, hbody, hprog, hpc, hlen, hmax⟩ := get_code_ok h
  have H := gen_expr_ok ast ⟨0, []⟩ body rfl hbody
  subst hprog
  refine ⟨by simp [hlen], ?_, ?_, ?_, ?_⟩
  · have hops : OpsLE body.insts body.insts.length := by
      have := H.ops (opsLE_nil 0)
      simpa using this
    rw [← hlen]
    exact opsLE_push hops trivial
  · rw [← hlen]
    exact getElem?_push_len _ _
  · intro i hi
    rcases Nat.lt_trichotomy i body.insts.length with hlt | heq | hgt
    · rw [getElem?_push_lt _ hlt] at hi
      exact absurd hi (H.no_match i (by simp))
    · omega
    · rw [List.getElem?_eq_none_iff.mpr (by simp; omega)] at hi
      cases hi
  · have := H.reach (body.insts ++ [Instruction.Match])
      (fun i hle hlt => getElem?_push_lt _ hlt)
    simp only at this
    rw [hpc, hlen] at this
    exact this

/-! ## Claim C5 -/

/-- C5: every program produced by a successful `get_code` has all `Jump`
and `Split` operands within `[0, len)`; its last instruction is the unique
`Match` of the program; and that `Match` is reachable from address 0 by a
path of control-flow edges. -/
theorem c5_program_invariants (ast : AST) (prog : List Instruction)
    (h : get_code ast = .ok prog) :
    (∀ i a : Nat, prog[i]? = some (.Jump a) → a < prog.length) ∧
    (∀ i a b : Nat, prog[i]? = some (.Split a b) →
      a < prog.length ∧ b < prog.length) ∧
    prog[prog.length - 1]? = some .Match ∧
    (∀ i : Nat, prog[i]? = some .Match → i = prog.length - 1) ∧
    Reach prog 0 (prog.length - 1) := by
  obtain ⟨hlen, hops, hm, hu, hr⟩ := get_code_facts h
  refine ⟨?_, ?_, ?_, ?_, ?_⟩
  · intro i a hi
    have := hops i _ hi
    simp only [InstBound] at this
    omega
  · intro i a b hi
    have := hops i _ hi
    simp only [InstBound] at this
    omega
  · rw [hlen]
    simpa using hm
  · intro i hi
    rw [hlen]
    simpa using hu i hi
  · rw [hlen]
    simpa using hr

/-- Witness for C5: the tree `Char 'a'` compiles to `[Char 'a', Match]` and
satisfies all the program invariants of the claim. -/
theorem c5_program_invariants_witness :
    (∀ i a : Nat, ([Instruction.Char 'a',
        Instruction.Match] : List Instruction)[i]? = some (.Jump a) → a < 2) ∧
    (∀ i a b : Nat, ([Instruction.Char 'a',
        Instruction.Match] : List Instruction)[i]? = some (.Split a b) →
      a < 2 ∧ b < 2) ∧
    ([Instruction.Char 'a', Instruction.Match] : List Instruction)[1]? =
      some .Match ∧
    (∀ i : Nat, ([Instruction.Char 'a',
        Instruction.Match] : List Instruction)[i]? = some .Match → i = 1) ∧
    Reach [Instruction.Char 'a', Instruction.Match] 0 1 := by
  have h := c5_program_invariants (AST.Char 'a')
    [Instruction.Char 'a', Instruction.Match] rfl
  simpa using h

/-! ## Claim C7 -/

theorem eval_depth_char_eos {inst : List Instruction} {pc : Nat} {c : Char}
    {line : List Char} {sp : Nat} (fuel : Nat)
    (hget : inst[pc]? = some (.Char c)) (hsp : (line)[sp]? = none) :
    eval_depth (fuel + 1) inst line pc sp = some (.ok false) := by
  rw [eval_depth_char fuel line sp hget, hsp]

theorem eval_depth_char_ne {inst : List Instruction} {pc : Nat} {c d : Char}
    {line : List Char} {sp : Nat} (fuel : Nat)
    (hget : inst[pc]? = some (.Char c)) (hsp : (line)[sp]? = some d)
    (hcd : c ≠ d) :
    eval_depth (fuel + 1) inst line pc sp = some (.ok false) := by
  rw [eval_depth_char fuel line sp hget, hsp]
  simp [hcd]

theorem eval_depth_char_pcof {inst : List Instruction} {pc : Nat} {c d : Char}
    {line : List Char} {sp : Nat} (fuel : Nat)
    (hget : inst[pc]? = some (.Char c)) (hsp : (line)[sp]? = some d)
    (hcd : c = d) (hof : safe_add pc 1 = none) :
    eval_depth (fuel + 1) inst line pc sp = some (.error .PCOverFlow) := by
  rw [eval_depth_char fuel line sp hget, hsp]
  simp [hcd, hof]

theorem eval_depth_char_spof {inst : List Instruction} {pc : Nat} {c d : Char}
    {line : List Char} {sp : Nat} {pc2 : Nat} (fuel : Nat)
    (hget : inst[pc]? = some (.Char c)) (hsp : (line)[sp]? = some d)
    (hcd : c = d) (hpc : safe_add pc 1 = some pc2)
    (hof : safe_add sp 1 = none) :
    eval_depth (fuel + 1) inst line pc sp = some (.error .SPOverFlow) := by
  rw [eval_depth_char fuel line sp hget, hsp]
  simp [hcd, hpc, hof]

theorem eval_depth_char_adv {inst : List Instruction} {pc : Nat} {c d : Char}
    {line : List Char} {sp : Nat} {pc2 sp2 : Nat} (fuel : Nat)
    (hget : inst[pc]? = some (.Char c)) (hsp : (line)[sp]? = some d)
    (hcd : c = d) (hpc : safe_add pc 1 = some pc2)
    (hsp2 : safe_add sp 1 = some sp2) :
    eval_depth (fuel + 1) inst line pc sp = eval_depth fuel inst line pc2 sp2 := by
  rw [eval_depth_char fuel line sp hget, hsp]
  simp [hcd, hpc, hsp2]

theorem eval_no_invalid (inst : List Instruction)
    (hj : ∀ i a : Nat, inst[i]? = some (.Jump a) → a < inst.length)
    (hs : ∀ i a b : Nat, inst[i]? = some (.Split a b) →
      a < inst.length ∧ b < inst.length)
    (hc : ∀ (i : Nat) (c : Char), inst[i]? = some (.Char c) →
      i + 1 < inst.length) :
    ∀ (fuel : Nat) (line : List Char) (pc sp : Nat), pc < inst.length →
      eval_depth fuel inst line pc sp ≠ some (.error .InvalidPC) := by
  intro fuel
  induction fuel with
  | zero =>
    intro line pc sp _ h
    cases h
  | succ fuel ih =>
    intro line pc sp hpc h
    cases hget : inst[pc]? with
    | none =>
      rw [List.getElem?_eq_none_iff] at hget
      omega
    | some ins =>
      cases ins with
      | Char c =>
        cases hsp : (line)[sp]? with
        | none =>
          rw [eval_depth_char_eos fuel hget hsp] at h
          simp at h
        | some d =>
          by_cases hcd : c = d
          · cases hsa : safe_add pc 1 with
            | none =>
              rw [eval_depth_char_pcof fuel hget hsp hcd hsa] at h
              simp at h
            | some pc2 =>
              cases hsa2 : safe_add sp 1 with
              | none =>
                rw [eval_depth_char_spof fuel hget hsp hcd hsa hsa2] at h
                simp at h
              | some sp2 =>
                rw [eval_depth_char_adv fuel hget hsp hcd hsa hsa2] at h
                have hpc2 := safe_add_some hsa
                subst hpc2
                exact ih line (pc + 1) sp2 (hc pc c hget) h
          · rw [eval_depth_char_ne fuel hget hsp hcd] at h
            simp at h
      | Match =>
        rw [eval_depth_found fuel line sp hget] at h
        simp at h
      | Jump a =>
        rw [eval_depth_jump fuel line sp hget] at h
        exact ih line a sp (hj pc a hget) h
      | Split a1 a2 =>
        rw [eval_depth_split fuel line sp hget] at h
        obtain ⟨ha1, ha2⟩ := hs pc a1 a2 hget
        cases h1 : eval_depth fuel inst line a1 sp with
        | none =>
          rw [h1] at h
          simp at h
        | some r =>
          rw [h1] at h
          cases r with
          | error e =>
            have he : e = .InvalidPC := by simpa using h
            subst he
            exact ih line a1 sp ha1 h1
          | ok b =>
            cases b with
            | true => simp at h
            | false =>
              cases h2 : eval_depth fuel inst line a2 sp with
              | none =>
                rw [h2] at h
                simp at h
              | some r2 =>
                rw [h2] at h
                cases r2 with
                | error e2 =>
                  have he : e2 = .InvalidPC := by simpa using h
                  subst he
                  exact ih line a2 sp ha2 h2
                | ok b2 => simp at h

/-- C7: on any program produced by a successful `get_code`, the backtracking
evaluator started at program counter 0 never reports
`EvalError::InvalidPC`: every program counter it reaches is in range. -/
theorem c7_no_invalid_pc (ast : AST) (prog : List Instruction)
    (h : get_code ast = .ok prog) (fuel : Nat) (line : List Char) :
    eval_depth fuel prog line 0 0 ≠ some (.error .InvalidPC) := by
  obtain ⟨hlen, hops, hmatch, huniq, -⟩ := get_code_facts h
  apply eval_no_invalid
  · intro i a hi
    have := hops i _ hi
    simp only [InstBound] at this
    omega
  · intro i a b hi
    have := hops i _ hi
    simp only [InstBound] at this
    omega
  · intro i c hi
    have hilen : i < prog.length := (List.getElem?_eq_some_iff.mp hi).1
    have hne : i ≠ astSize ast := by
      intro he
      rw [he, hmatch] at hi
      cases hi
    omega
  · omega

/-- Witness for C7: program of the tree `Char 'a'`, line `"a"`, fuel 5. -/
theorem c7_no_invalid_pc_witness :
    eval_depth 5 [Instruction.Char 'a', Instruction.Match] ['a'] 0 0 ≠
      some (.error .InvalidPC) :=
  c7_no_invalid_pc (AST.Char 'a') [Instruction.Char 'a', Instruction.Match]
    rfl 5 ['a']

/-! ## Claim C8 -/

theorem astSize_nestStar : ∀ n : Nat, astSize (nestStar n) = 2 * n + 1 := by
  intro n
  induction n with
  | zero => rfl
  | succ n ih =>
    simp only [nestStar, astSize, ih]
    omega

/-- C8: the program counter increment is a checked addition —
`inc_pc` fails with `PCOverFlow` exactly when the counter would exceed
`usize::MAX`; a tree whose compiled size exceeds the representable range
makes `get_code` fail with `PCOverFlow` rather than wrap; and a tree whose
compiled size stays within range compiles without any overflow error, to a
program of exactly that size. -/
theorem c8_checked_pc (ast : AST) :
    (∀ g : Generator, inc_pc g = .error .PCOverFlow ↔ USIZE_MAX < g.pc + 1) ∧
    (USIZE_MAX < astSize ast + 1 → get_code ast = .error .PCOverFlow) ∧
    (astSize ast + 1 ≤ USIZE_MAX →
      ∃ prog, get_code ast = .ok prog ∧ prog.length = astSize ast + 1) := by
  refine ⟨?_, ?_, ?_⟩
  · intro g
    constructor
    · intro h
      exact (inc_pc_er h).2
    · intro h
      simp [inc_pc, safe_add, h]
  · intro hgt
    cases hgc : get_code ast with
    | ok prog =>
      obtain ⟨body, -, -, -, -, hle⟩ := get_code_ok hgc
      omega
    | error e =>
      obtain ⟨he, -⟩ := get_code_er hgc
      rw [← he]
  · intro hle
    cases hgc : get_code ast with
    | ok prog =>
      exact ⟨prog, rfl, (get_code_facts hgc).1⟩
    | error e =>
      obtain ⟨-, hgt⟩ := get_code_er hgc
      omega

/-- Witness for C8: `inc_pc` at the maximal counter fails; the tree
`Star^(2^63)(Char 'a')`, whose compiled size `2^64 + 1` exceeds
`usize::MAX`, is rejected with `PCOverFlow`; and the in-range tree
`Char 'a'` compiles to a program of length 2. -/
theorem c8_checked_pc_witness :
    inc_pc ⟨USIZE_MAX, []⟩ = .error .PCOverFlow ∧
    get_code (nestStar (2 ^ 63)) = .error .PCOverFlow ∧
    ∃ prog, get_code (AST.Char 'a') = .ok prog ∧ prog.length = 2 := by
  refine ⟨?_, ?_, ?_⟩
  · exact ((c8_checked_pc (AST.Char 'a')).1 ⟨USIZE_MAX, []⟩).mpr
      (Nat.lt_succ_self USIZE_MAX)
  · refine (c8_checked_pc (nestStar (2 ^ 63))).2.1 ?_
    rw [astSize_nestStar]
    norm_num [USIZE_MAX]
  · obtain ⟨prog, hp, hl⟩ := (c8_checked_pc (AST.Char 'a')).2.2
      (by norm_num [USIZE_MAX, astSize])
    exact ⟨prog, hp, by simpa [astSize] using hl⟩

/-! ## Claim C9 -/

/-- C9: the generator maintains `pc == insts.len()` across every
`gen_expr` call, and consequently the defensive patch-failure errors
`FailOr`, `FailStar`, `FailQuestion` are never returned by `get_code`,
for any input tree. -/
theorem c9_patch_sites_sound (ast : AST) :
    (∀ g g' : Generator, g.pc = g.insts.length → gen_expr ast g = .ok g' →
      g'.pc = g'.insts.length) ∧
    get_code ast ≠ .error .FailOr ∧
    get_code ast ≠ .error .FailStar ∧
    get_code ast ≠ .error .FailQuestion := by
  refine ⟨fun g g' hpc h => (gen_expr_ok ast g g' hpc h).pc_len, ?_, ?_, ?_⟩
  all_goals
    intro h
    obtain ⟨he, -⟩ := get_code_er h
    cases he

/-- Witness for C9 at the tree `Char 'a'`: the invariant holds across its
one-instruction generation step, and its compilation returns none of the
patch-failure errors. -/
theorem c9_patch_sites_sound_witness :
    ((⟨1, [Instruction.Char 'a']⟩ : Generator).pc =
      [Instruction.Char 'a'].length) ∧
    get_code (AST.Char 'a') ≠ .error .FailOr ∧
    get_code (AST.Char 'a') ≠ .error .FailStar ∧
    get_code (AST.Char 'a') ≠ .error .FailQuestion :=
  ⟨(c9_patch_sites_sound (AST.Char 'a')).1 ⟨0, []⟩ ⟨1, [Instruction.Char 'a']⟩
      rfl rfl,
    (c9_patch_sites_sound (AST.Char 'a')).2.1,
    (c9_patch_sites_sound (AST.Char 'a')).2.2.1,
    (c9_patch_sites_sound (AST.Char 'a')).2.2.2⟩

end RegexEngine
